import Mathlib

/-!
Shallow embedding of the serde_patch crate (JSON Merge Patch, RFC 7396):
the tree value model (serde_json::Value), the recursive differ
(src/diff_patch.rs) and the two recursive mergers (src/apply_patch.rs and
src/apply_patch_mut.rs), together with proofs of the specified properties.

Modelling notes:
* serde_json::Value is the mutual inductive Value / ValueItems / ObjEntries
  below.  Numbers are modelled as integers: none of the verified properties
  inspects the numeric payload.
* serde_json::Map is modelled as an insertion-ordered association list with
  unique keys (the uniqueness invariant of serde_json maps is the WF
  predicate below).  The ordering discipline (insertion order, as with the
  preserve_order feature) is modelled from the spec, since the crate
  manifest selecting the map implementation is not part of the sources.
* Value equality (the == used by compute_diff) compares objects as maps:
  equal sizes and pointwise equal lookups, irrespective of entry order.
  This is the veq predicate below.
-/

namespace SerdePatch

mutual

/-- The tree value type: serde_json::Value with integer numbers. -/
inductive Value : Type where
  | null : Value
  | bool (b : Bool) : Value
  | num (n : Int) : Value
  | str (s : String) : Value
  | arr (items : ValueItems) : Value
  | obj (entries : ObjEntries) : Value
deriving DecidableEq

/-- The element list of an Array value. -/
inductive ValueItems : Type where
  | nil : ValueItems
  | cons (head : Value) (tail : ValueItems) : ValueItems
deriving DecidableEq

/-- The ordered entry list of an Object value (serde_json::Map). -/
inductive ObjEntries : Type where
  | nil : ObjEntries
  | cons (key : String) (val : Value) (tail : ObjEntries) : ObjEntries
deriving DecidableEq

end

namespace ObjEntries

/-- Map lookup: the value at the first entry with the given key. -/
def get (k : String) : ObjEntries → Option Value
  | .nil => none
  | .cons k' v t => if k' = k then some v else get k t

/-- Map membership test for a key (Map::contains_key). -/
def containsKey (k : String) (m : ObjEntries) : Bool :=
  (m.get k).isSome

/-- Map::remove: drop the entry with the given key, if present. -/
def remove (k : String) : ObjEntries → ObjEntries
  | .nil => .nil
  | .cons k' v t => if k' = k then t else .cons k' v (remove k t)

/-- Store a value at a key: replace the existing entry in place, or append
a new entry at the end (the entry-or-insert discipline of the merger). -/
def set (k : String) (v : Value) : ObjEntries → ObjEntries
  | .nil => .cons k v .nil
  | .cons k' w t => if k' = k then .cons k v t else .cons k' w (set k v t)

/-- The keys of the map, in entry order. -/
def keys : ObjEntries → List String
  | .nil => []
  | .cons k _ t => k :: keys t

/-- Concatenation of two entry lists. -/
def append : ObjEntries → ObjEntries → ObjEntries
  | .nil, b => b
  | .cons k v t, b => .cons k v (append t b)

/-- Map::is_empty. -/
def isEmpty : ObjEntries → Bool
  | .nil => true
  | .cons _ _ _ => false

/-- Number of entries (Map::len). -/
def length : ObjEntries → Nat
  | .nil => 0
  | .cons _ _ t => length t + 1

/-- Keys are pairwise distinct (the invariant every serde_json map keeps). -/
def nodupKeys : ObjEntries → Bool
  | .nil => true
  | .cons k _ t => !(containsKey k t) && nodupKeys t

end ObjEntries

/-- Value::is_null. -/
def Value.isNull : Value → Bool
  | .null => true
  | _ => false

/-- Value::is_object. -/
def Value.isObj : Value → Bool
  | .obj _ => true
  | _ => false

/-- Lookup inside a value known to be an object; none otherwise. -/
def Value.objGet (v : Value) (k : String) : Option Value :=
  match v with
  | .obj m => m.get k
  | _ => none

mutual

/-- serde_json Value equality: objects compare as maps (same size and
pointwise equal lookups), arrays and scalars compare structurally. -/
def veq : Value → Value → Bool
  | .null, .null => true
  | .bool a, .bool b => a == b
  | .num a, .num b => a == b
  | .str a, .str b => a == b
  | .arr xs, .arr ys => veqItems xs ys
  | .obj a, .obj b => a.length == b.length && veqEntries a b
  | _, _ => false

/-- Elementwise equality of array items. -/
def veqItems : ValueItems → ValueItems → Bool
  | .nil, .nil => true
  | .cons x xs, .cons y ys => veq x y && veqItems xs ys
  | _, _ => false

/-- Every entry of the first list maps, in the second map, to an equal
value. -/
def veqEntries : ObjEntries → ObjEntries → Bool
  | .nil, _ => true
  | .cons k v t, b =>
    (match b.get k with
     | some w => veq v w
     | none => false) && veqEntries t b

end

/-- Option-level value equality, as in the comparison old == Some(new). -/
def veqOpt : Option Value → Value → Bool
  | some v, w => veq v w
  | none, _ => false

mutual

/-- Well-formed values: every object node, also inside arrays, has pairwise
distinct keys.  Every value produced by serde_json satisfies this. -/
def WF : Value → Bool
  | .null => true
  | .bool _ => true
  | .num _ => true
  | .str _ => true
  | .arr xs => WFItems xs
  | .obj m => m.nodupKeys && WFEntries m

/-- Well-formedness of array items. -/
def WFItems : ValueItems → Bool
  | .nil => true
  | .cons x xs => WF x && WFItems xs

/-- Well-formedness of object entry values. -/
def WFEntries : ObjEntries → Bool
  | .nil => true
  | .cons _ v t => WF v && WFEntries t

end

/-- Path extension: key for an empty current path, else dot-joined. -/
def childPath (currentPath k : String) : String :=
  if currentPath = "" then k else currentPath ++ "." ++ k

/-- The deletion markers of an object-vs-object diff: one Null entry, in
old order, for each key of old absent from new (second loop of
compute_diff in src/diff_patch.rs). -/
def delMarkers : ObjEntries → ObjEntries → ObjEntries
  | .nil, _ => .nil
  | .cons k _ t, nm =>
    if nm.containsKey k then delMarkers t nm
    else .cons k .null (delMarkers t nm)

mutual

/-- compute_diff from src/diff_patch.rs: recursive diff of old against new,
returning none when nothing changed and nothing is forced.  The forced set
is the HashSet of dot-joined paths; membership is list membership here. -/
def compute_diff (old : Option Value) (new : Value) (forced : List String)
    (currentPath : String) : Option Value :=
  match old, new with
  | some (.obj om), .obj nm =>
    let dm := (diffNewEntries om nm forced currentPath).append (delMarkers om nm)
    if dm.isEmpty then none else some (.obj dm)
  | old, new =>
    if veqOpt old new && !(forced.contains currentPath) then none
    else some new

/-- The first loop of compute_diff: walk the entries of new in order; a
recursive diff that yields a value is inserted under its key, else a forced
path inserts the new value verbatim, else the key is skipped.  Insertion is
modelled as appending, which agrees with Map::insert because the keys of
new are unique. -/
def diffNewEntries (om : ObjEntries) (nm : ObjEntries) (forced : List String)
    (currentPath : String) : ObjEntries :=
  match nm with
  | .nil => .nil
  | .cons k nv rest =>
    let fullPath := childPath currentPath k
    match compute_diff (om.get k) nv forced fullPath with
    | some dv => .cons k dv (diffNewEntries om rest forced currentPath)
    | none =>
      if forced.contains fullPath then
        .cons k nv (diffNewEntries om rest forced currentPath)
      else diffNewEntries om rest forced currentPath

end

/-- diff from src/diff_patch.rs, at the tree level: empty forced set, empty
path, a none result unwrapped to the empty object.  The serde conversions
of the typed records are the external serialization layer. -/
def diffValue (old_val new_val : Value) : Value :=
  (compute_diff (some old_val) new_val [] "").getD (.obj .nil)

/-- diff_including from src/diff_patch.rs, at the tree level: like
diffValue but with the caller-supplied forced path set. -/
def diff_includingValue (old_val new_val : Value) (including : List String) :
    Value :=
  (compute_diff (some old_val) new_val including "").getD (.obj .nil)

namespace ApplyPatch

mutual

/-- merge_patch from src/apply_patch.rs: RFC 7396 merge of a patch into a
target.  An object patch first coerces a non-object target to the empty
object, then processes its entries in order; a non-object patch replaces
the target wholesale. -/
def merge_patch (target : Value) (patch : Value) : Value :=
  match patch with
  | .obj pm =>
    let tm := match target with
      | .obj tm => tm
      | _ => ObjEntries.nil
    .obj (merge_entries tm pm)
  | _ => patch

/-- The entry loop of merge_patch: a Null patch value removes the key, any
other patch value is merged into the existing entry (created as Null
first when absent, hence the getD). -/
def merge_entries (tm : ObjEntries) (pm : ObjEntries) : ObjEntries :=
  match pm with
  | .nil => tm
  | .cons k pv rest =>
    if pv.isNull then merge_entries (tm.remove k) rest
    else merge_entries (tm.set k (merge_patch ((tm.get k).getD .null) pv)) rest

end

end ApplyPatch

namespace ApplyPatchMut

mutual

/-- merge_patch from src/apply_patch_mut.rs (the second, textually separate
copy of the merger). -/
def merge_patch (target : Value) (patch : Value) : Value :=
  match patch with
  | .obj pm =>
    let tm := match target with
      | .obj tm => tm
      | _ => ObjEntries.nil
    .obj (merge_entries tm pm)
  | _ => patch

/-- The entry loop of the merger in src/apply_patch_mut.rs. -/
def merge_entries (tm : ObjEntries) (pm : ObjEntries) : ObjEntries :=
  match pm with
  | .nil => tm
  | .cons k pv rest =>
    if pv.isNull then merge_entries (tm.remove k) rest
    else merge_entries (tm.set k (merge_patch ((tm.get k).getD .null) pv)) rest

end

end ApplyPatchMut

/-- apply_merge_patch from src/apply_patch.rs: serialize the record,
parse the patch text, merge, deserialize into a fresh record.  The serde
conversions and the parser are external collaborators, passed as
option-returning functions (none models each error case). -/
def apply_merge_patch {T : Type} (toValue : T → Option Value)
    (fromValue : Value → Option T) (parse : String → Option Value)
    (current : T) (patch_json : String) : Option T :=
  match toValue current with
  | none => none
  | some current_val =>
    match parse patch_json with
    | none => none
    | some patch_val =>
      fromValue (ApplyPatch.merge_patch current_val patch_val)

/-- apply_merge_patch_mut from src/apply_patch_mut.rs: the in-place
variant.  The returned pair is the final state of the caller-owned record
and the success flag; the record is assigned only after serialization,
parsing, merging and deserialization have all succeeded, so every failing
step leaves it at its original value.  P stands for the AsRef byte input
of the patch. -/
def apply_merge_patch_mut {T P : Type} (toValue : T → Option Value)
    (fromValue : Value → Option T) (parse : P → Option Value)
    (current : T) (patch : P) : T × Bool :=
  match toValue current with
  | none => (current, false)
  | some current_val =>
    match parse patch with
    | none => (current, false)
    | some patch_val =>
      match fromValue (ApplyPatchMut.merge_patch current_val patch_val) with
      | none => (current, false)
      | some updated => (updated, true)

/-- Induction principle for entry lists alone (the mutual recursor of the
value types specialises to this when the motive ignores the values). -/
@[induction_eliminator]
theorem ObjEntries.entriesInduction {motive : ObjEntries → Prop}
    (nil : motive .nil)
    (cons : ∀ (k : String) (v : Value) (t : ObjEntries),
      motive t → motive (.cons k v t)) :
    ∀ m, motive m
  | .nil => nil
  | .cons k v t => cons k v t (ObjEntries.entriesInduction nil cons t)

/-- Induction principle for item lists alone. -/
@[induction_eliminator]
theorem ValueItems.itemsInduction {motive : ValueItems → Prop}
    (nil : motive .nil)
    (cons : ∀ (v : Value) (t : ValueItems), motive t → motive (.cons v t)) :
    ∀ xs, motive xs
  | .nil => nil
  | .cons v t => cons v t (ValueItems.itemsInduction nil cons t)

namespace ObjEntries

@[simp]
theorem get_nil (k : String) : (ObjEntries.nil).get k = none := rfl

theorem get_cons (k k' : String) (v : Value) (t : ObjEntries) :
    (ObjEntries.cons k' v t).get k = if k' = k then some v else t.get k := rfl

theorem get_isSome_iff_mem_keys (k : String) (m : ObjEntries) :
    (m.get k).isSome = true ↔ k ∈ m.keys := by
  induction m with
  | nil => simp [get, keys]
  | cons k' v t ih =>
    by_cases h : k' = k
    · simp [get, keys, h]
    · have hne : ¬ k = k' := fun hc => h hc.symm
      simp [get, keys, h, hne, ih]

theorem get_eq_none_iff_not_mem_keys (k : String) (m : ObjEntries) :
    m.get k = none ↔ ¬ k ∈ m.keys := by
  rw [← get_isSome_iff_mem_keys]
  cases m.get k <;> simp

theorem get_set_self (k : String) (v : Value) (m : ObjEntries) :
    (m.set k v).get k = some v := by
  induction m with
  | nil => simp [set, get]
  | cons k' w t ih =>
    by_cases h : k' = k <;> simp [set, get, h, ih]

theorem get_set_ne (k k' : String) (v : Value) (m : ObjEntries) (h : k' ≠ k) :
    (m.set k v).get k' = m.get k' := by
  have hne : ¬ k = k' := fun hc => h hc.symm
  induction m with
  | nil => simp [set, get, hne]
  | cons k'' w t ih =>
    by_cases h2 : k'' = k
    · subst h2
      simp [set, get, hne]
    · simp [set, get, h2, ih]

theorem get_remove_ne (k k' : String) (m : ObjEntries) (h : k' ≠ k) :
    (m.remove k).get k' = m.get k' := by
  have hne : ¬ k = k' := fun hc => h hc.symm
  induction m with
  | nil => simp [remove]
  | cons k'' w t ih =>
    by_cases h2 : k'' = k
    · subst h2
      simp [remove, get, hne]
    · simp [remove, get, h2, ih]

theorem get_remove_self (k : String) (m : ObjEntries)
    (h : m.nodupKeys = true) : (m.remove k).get k = none := by
  induction m with
  | nil => simp [remove]
  | cons k' w t ih =>
    simp only [nodupKeys, Bool.and_eq_true, Bool.not_eq_true'] at h
    by_cases h2 : k' = k
    · subst h2
      simp only [remove, if_pos rfl]
      have h1 := h.1
      simp only [containsKey] at h1
      exact Option.not_isSome_iff_eq_none.mp (by simp [h1])
    · simp [remove, get, h2, ih h.2]

theorem get_append (a b : ObjEntries) (k : String) :
    (a.append b).get k = if (a.get k).isSome then a.get k else b.get k := by
  induction a with
  | nil => simp [append]
  | cons k' v t ih =>
    by_cases h : k' = k <;> simp [append, get, h, ih]

theorem keys_append (a b : ObjEntries) :
    (a.append b).keys = a.keys ++ b.keys := by
  induction a with
  | nil => simp [append, keys]
  | cons k v t ih => simp [append, keys, ih]

theorem isEmpty_eq_false_of_cons {a : ObjEntries} {b : ObjEntries}
    {k : String} {v : Value} (h : b = ObjEntries.cons k v a) :
    b.isEmpty = false := by
  subst h; rfl

theorem append_nil_right (a : ObjEntries) : a.append .nil = a := by
  induction a with
  | nil => rfl
  | cons k v t ih => simp [append, ih]

theorem isEmpty_append (a b : ObjEntries) :
    (a.append b).isEmpty = (a.isEmpty && b.isEmpty) := by
  cases a with
  | nil => simp [append, isEmpty]
  | cons k v t => simp [append, isEmpty]

theorem isEmpty_eq_true_iff (a : ObjEntries) :
    a.isEmpty = true ↔ a = .nil := by
  cases a <;> simp [isEmpty]

theorem containsKey_remove_imp (k k' : String) (m : ObjEntries)
    (h : (m.remove k).containsKey k' = true) : m.containsKey k' = true := by
  induction m with
  | nil => simpa [remove] using h
  | cons k'' v t ih =>
    by_cases h2 : k'' = k
    · subst h2
      simp only [remove, if_pos rfl] at h
      by_cases h3 : k'' = k'
      · simp [containsKey, get, h3]
      · simpa [containsKey, get, h3] using h
    · by_cases h3 : k'' = k'
      · simp [containsKey, get, h3]
      · simp only [remove, if_neg h2] at h
        simp only [containsKey, get, if_neg h3] at h ⊢
        exact ih h

theorem nodupKeys_remove (k : String) (m : ObjEntries)
    (h : m.nodupKeys = true) : (m.remove k).nodupKeys = true := by
  induction m with
  | nil => simpa [remove] using h
  | cons k' v t ih =>
    simp only [nodupKeys, Bool.and_eq_true, Bool.not_eq_true'] at h
    by_cases h2 : k' = k
    · simpa [remove, h2] using h.2
    · simp only [remove, if_neg h2, nodupKeys, Bool.and_eq_true,
        Bool.not_eq_true']
      refine ⟨?_, ih h.2⟩
      cases h3 : (t.remove k).containsKey k'
      · rfl
      · exact absurd (containsKey_remove_imp k k' t h3) (by simp [h.1])

theorem containsKey_set_self (k : String) (v : Value) (m : ObjEntries) :
    (m.set k v).containsKey k = true := by
  simp [containsKey, get_set_self]

theorem containsKey_set_ne (k k' : String) (v : Value) (m : ObjEntries)
    (h : k' ≠ k) : (m.set k v).containsKey k' = m.containsKey k' := by
  simp [containsKey, get_set_ne _ _ _ _ h]

theorem nodupKeys_set (k : String) (v : Value) (m : ObjEntries)
    (h : m.nodupKeys = true) : (m.set k v).nodupKeys = true := by
  induction m with
  | nil => simp [set, nodupKeys, containsKey]
  | cons k' w t ih =>
    simp only [nodupKeys, Bool.and_eq_true, Bool.not_eq_true'] at h
    by_cases h2 : k' = k
    · subst h2
      simp only [set, if_pos rfl, nodupKeys, Bool.and_eq_true,
        Bool.not_eq_true']
      exact ⟨h.1, h.2⟩
    · simp only [set, if_neg h2, nodupKeys, Bool.and_eq_true,
        Bool.not_eq_true']
      refine ⟨?_, ih h.2⟩
      rw [containsKey_set_ne _ _ _ _ h2]
      exact h.1

theorem nodupKeys_iff_keys_nodup (m : ObjEntries) :
    m.nodupKeys = true ↔ m.keys.Nodup := by
  induction m with
  | nil => simp [nodupKeys, keys]
  | cons k v t ih =>
    simp only [nodupKeys, Bool.and_eq_true, Bool.not_eq_true', keys,
      List.nodup_cons, ih, containsKey]
    constructor
    · rintro ⟨h1, h2⟩
      refine ⟨?_, h2⟩
      rw [← get_isSome_iff_mem_keys]
      simp [h1]
    · rintro ⟨h1, h2⟩
      refine ⟨?_, h2⟩
      rw [← get_isSome_iff_mem_keys] at h1
      simpa using h1

theorem length_eq_keys_length (m : ObjEntries) :
    m.length = m.keys.length := by
  induction m with
  | nil => rfl
  | cons k v t ih => simp [length, keys, ih]

end ObjEntries

namespace ApplyPatch

theorem merge_entries_nil (tm : ObjEntries) : merge_entries tm .nil = tm := rfl

theorem merge_entries_cons (tm : ObjEntries) (k : String) (pv : Value)
    (rest : ObjEntries) :
    merge_entries tm (.cons k pv rest) =
      if pv.isNull then merge_entries (tm.remove k) rest
      else merge_entries
        (tm.set k (merge_patch ((tm.get k).getD .null) pv)) rest := rfl

/-- Keys absent from the patch object are left untouched by the entry
loop (the frame property of the merger). -/
theorem merge_entries_get_frame (tm pm : ObjEntries) (k : String)
    (h : pm.get k = none) :
    (merge_entries tm pm).get k = tm.get k := by
  induction pm generalizing tm with
  | nil => rfl
  | cons k' pv rest ih =>
    have hne : ¬ k' = k := by
      intro hc
      rw [ObjEntries.get_cons, if_pos hc] at h
      cases h
    have hr : rest.get k = none := by
      rwa [ObjEntries.get_cons, if_neg hne] at h
    rw [merge_entries_cons]
    by_cases hn : pv.isNull
    · rw [if_pos hn, ih _ hr,
        ObjEntries.get_remove_ne _ _ _ (fun hc => hne hc.symm)]
    · rw [if_neg hn, ih _ hr,
        ObjEntries.get_set_ne _ _ _ _ (fun hc => hne hc.symm)]

/-- A non-Null patch entry ends up merged into the target entry at its key
(created as Null first when absent). -/
theorem merge_entries_get_some (tm pm : ObjEntries) (k : String) (pv : Value)
    (hnd : pm.nodupKeys = true) (h : pm.get k = some pv)
    (hn : pv.isNull = false) :
    (merge_entries tm pm).get k =
      some (merge_patch ((tm.get k).getD .null) pv) := by
  induction pm generalizing tm with
  | nil => cases h
  | cons k' pv' rest ih =>
    simp only [ObjEntries.nodupKeys, Bool.and_eq_true,
      Bool.not_eq_true'] at hnd
    rw [merge_entries_cons]
    by_cases hk : k' = k
    · subst hk
      rw [ObjEntries.get_cons, if_pos rfl] at h
      have hpv : pv' = pv := by cases h; rfl
      subst hpv
      rw [if_neg (by simp [hn])]
      have hrest : rest.get k' = none := by
        have h1 := hnd.1
        simp only [ObjEntries.containsKey] at h1
        exact Option.not_isSome_iff_eq_none.mp (by simp [h1])
      rw [merge_entries_get_frame _ _ _ hrest, ObjEntries.get_set_self]
    · have hr : rest.get k = some pv := by
        rwa [ObjEntries.get_cons, if_neg hk] at h
      by_cases hnull : pv'.isNull
      · rw [if_pos hnull, ih _ hnd.2 hr,
          ObjEntries.get_remove_ne _ _ _ (fun hc => hk hc.symm)]
      · rw [if_neg hnull, ih _ hnd.2 hr,
          ObjEntries.get_set_ne _ _ _ _ (fun hc => hk hc.symm)]

/-- A Null patch entry removes its key from the target object. -/
theorem merge_entries_get_null (tm pm : ObjEntries) (k : String)
    (hndt : tm.nodupKeys = true) (hnd : pm.nodupKeys = true)
    (h : pm.get k = some .null) :
    (merge_entries tm pm).get k = none := by
  induction pm generalizing tm with
  | nil => cases h
  | cons k' pv' rest ih =>
    simp only [ObjEntries.nodupKeys, Bool.and_eq_true,
      Bool.not_eq_true'] at hnd
    rw [merge_entries_cons]
    by_cases hk : k' = k
    · subst hk
      rw [ObjEntries.get_cons, if_pos rfl] at h
      have hpv : pv' = Value.null := by cases h; rfl
      subst hpv
      rw [if_pos (show Value.null.isNull = true from rfl)]
      have hrest : rest.get k' = none := by
        have h1 := hnd.1
        simp only [ObjEntries.containsKey] at h1
        exact Option.not_isSome_iff_eq_none.mp (by simp [h1])
      rw [merge_entries_get_frame _ _ _ hrest,
        ObjEntries.get_remove_self _ _ hndt]
    · have hr : rest.get k = some .null := by
        rwa [ObjEntries.get_cons, if_neg hk] at h
      by_cases hnull : pv'.isNull
      · rw [if_pos hnull]
        exact ih _ (ObjEntries.nodupKeys_remove _ _ hndt) hnd.2 hr
      · rw [if_neg hnull]
        exact ih _ (ObjEntries.nodupKeys_set _ _ _ hndt) hnd.2 hr

/-- The entry loop preserves key uniqueness of the target. -/
theorem merge_entries_nodupKeys (tm pm : ObjEntries)
    (h : tm.nodupKeys = true) :
    (merge_entries tm pm).nodupKeys = true := by
  induction pm generalizing tm with
  | nil => exact h
  | cons k' pv rest ih =>
    rw [merge_entries_cons]
    by_cases hn : pv.isNull
    · rw [if_pos hn]
      exact ih _ (ObjEntries.nodupKeys_remove _ _ h)
    · rw [if_neg hn]
      exact ih _ (ObjEntries.nodupKeys_set _ _ _ h)

end ApplyPatch

theorem WFEntries_get (m : ObjEntries) (k : String) (v : Value)
    (h : WFEntries m = true) (hg : m.get k = some v) : WF v = true := by
  induction m with
  | nil => cases hg
  | cons k' v' t ih =>
    simp only [WFEntries, Bool.and_eq_true] at h
    by_cases hk : k' = k
    · rw [ObjEntries.get_cons, if_pos hk] at hg
      cases hg
      exact h.1
    · rw [ObjEntries.get_cons, if_neg hk] at hg
      exact ih h.2 hg

mutual

/-- Value equality is reflexive on well-formed values. -/
theorem veq_refl : ∀ v : Value, WF v = true → veq v v = true
  | .null, _ => rfl
  | .bool b, _ => by simp [veq]
  | .num n, _ => by simp [veq]
  | .str s, _ => by simp [veq]
  | .arr xs, h => by
    simp only [WF] at h
    simp only [veq]
    exact veqItems_refl xs h
  | .obj m, h => by
    simp only [WF, Bool.and_eq_true] at h
    simp only [veq, Bool.and_eq_true]
    exact ⟨by simp, veqEntries_sub m m h.1 h.2 (fun k v hv => hv)⟩

/-- Item list equality is reflexive on well-formed items. -/
theorem veqItems_refl : ∀ xs : ValueItems, WFItems xs = true →
    veqItems xs xs = true
  | .nil, _ => rfl
  | .cons x t, h => by
    simp only [WFItems, Bool.and_eq_true] at h
    simp only [veqItems, Bool.and_eq_true]
    exact ⟨veq_refl x h.1, veqItems_refl t h.2⟩

/-- An entry list whose entries all reappear verbatim in a map compares
equal to it entrywise. -/
theorem veqEntries_sub : ∀ (t a : ObjEntries), t.nodupKeys = true →
    WFEntries t = true → (∀ k v, t.get k = some v → a.get k = some v) →
    veqEntries t a = true
  | .nil, _, _, _, _ => rfl
  | .cons k v tl, a, hnd, hwf, hcond => by
    simp only [ObjEntries.nodupKeys, Bool.and_eq_true,
      Bool.not_eq_true'] at hnd
    simp only [WFEntries, Bool.and_eq_true] at hwf
    have ha : a.get k = some v :=
      hcond k v (by rw [ObjEntries.get_cons, if_pos rfl])
    simp only [veqEntries, ha, Bool.and_eq_true]
    refine ⟨veq_refl v hwf.1, veqEntries_sub tl a hnd.2 hwf.2 ?_⟩
    intro k' v' hv'
    by_cases hk : k' = k
    · subst hk
      have : (tl.get k').isSome = true := by simp [hv']
      simp only [ObjEntries.containsKey] at hnd
      rw [hnd.1] at this
      cases this
    · refine hcond k' v' ?_
      rw [ObjEntries.get_cons, if_neg (fun hc => hk hc.symm)]
      exact hv'

end

/-- Pointwise relation between two optional lookups: both absent, or both
present with equal values. -/
def OptVeq : Option Value → Option Value → Prop
  | none, none => True
  | some v, some w => veq v w = true
  | _, _ => False

theorem OptVeq.isSome_eq {o1 o2 : Option Value} (h : OptVeq o1 o2) :
    o1.isSome = o2.isSome := by
  cases o1 <;> cases o2 <;> simp_all [OptVeq]

/-- Half of veq_obj_of_lookup without well-formedness of the values: every
lookup of the first list succeeds in the second with an equal value. -/
theorem veqEntries_sub' (t b : ObjEntries) (hnd : t.nodupKeys = true)
    (hcond : ∀ k v, t.get k = some v →
      ∃ w, b.get k = some w ∧ veq v w = true) :
    veqEntries t b = true := by
  induction t with
  | nil => rfl
  | cons k v tl ih =>
    simp only [ObjEntries.nodupKeys, Bool.and_eq_true,
      Bool.not_eq_true'] at hnd
    obtain ⟨w, hw, hvw⟩ :=
      hcond k v (by rw [ObjEntries.get_cons, if_pos rfl])
    simp only [veqEntries, hw, Bool.and_eq_true]
    refine ⟨hvw, ih hnd.2 ?_⟩
    intro k' v' hv'
    by_cases hk : k' = k
    · subst hk
      have hs : (tl.get k').isSome = true := by simp [hv']
      simp only [ObjEntries.containsKey] at hnd
      rw [hnd.1] at hs
      cases hs
    · refine hcond k' v' ?_
      rw [ObjEntries.get_cons, if_neg (fun hc => hk hc.symm)]
      exact hv'

/-- Two well-formed entry lists with pointwise equal lookups are equal
objects. -/
theorem veq_obj_of_lookup (a b : ObjEntries) (hnda : a.nodupKeys = true)
    (hndb : b.nodupKeys = true) (h : ∀ k, OptVeq (a.get k) (b.get k)) :
    veq (.obj a) (.obj b) = true := by
  simp only [veq, Bool.and_eq_true]
  constructor
  · have hperm : List.Perm a.keys b.keys := by
      refine (List.perm_ext_iff_of_nodup
        ((ObjEntries.nodupKeys_iff_keys_nodup a).mp hnda)
        ((ObjEntries.nodupKeys_iff_keys_nodup b).mp hndb)).mpr ?_
      intro k
      rw [← ObjEntries.get_isSome_iff_mem_keys, ← ObjEntries.get_isSome_iff_mem_keys,
        (h k).isSome_eq]
    simp [ObjEntries.length_eq_keys_length, hperm.length_eq]
  · refine veqEntries_sub' a b hnda ?_
    intro k v hv
    have hk := h k
    rw [hv] at hk
    cases hb : b.get k with
    | none => rw [hb] at hk; cases hk
    | some w => rw [hb] at hk; exact ⟨w, rfl, hk⟩

/-- Entrywise object equality yields the lookup of every entry of the
first list. -/
theorem veqEntries_get (a b : ObjEntries) (h : veqEntries a b = true) :
    ∀ k v, a.get k = some v → ∃ w, b.get k = some w ∧ veq v w = true := by
  induction a with
  | nil => intro k v hv; cases hv
  | cons k' v' tl ih =>
    simp only [veqEntries, Bool.and_eq_true] at h
    intro k v hv
    by_cases hk : k' = k
    · subst hk
      rw [ObjEntries.get_cons, if_pos rfl] at hv
      cases hv
      cases hb : b.get k' with
      | none => rw [hb] at h; simp at h
      | some w =>
        rw [hb] at h
        exact ⟨w, rfl, h.1⟩
    · rw [ObjEntries.get_cons, if_neg hk] at hv
      exact ih h.2 k v hv

/-- Object equality gives pointwise equal lookups (the converse of
veq_obj_of_lookup), using key uniqueness on both sides. -/
theorem veq_obj_get (a b : ObjEntries) (hnda : a.nodupKeys = true)
    (hndb : b.nodupKeys = true) (h : veq (.obj a) (.obj b) = true) :
    ∀ k, OptVeq (a.get k) (b.get k) := by
  simp only [veq, Bool.and_eq_true] at h
  have hsub : a.keys ⊆ b.keys := by
    intro k hk
    rw [← ObjEntries.get_isSome_iff_mem_keys] at hk ⊢
    cases ha : a.get k with
    | none => rw [ha] at hk; cases hk
    | some v =>
      obtain ⟨w, hw, _⟩ := veqEntries_get a b h.2 k v ha
      simp [hw]
  have hlen : b.keys.length ≤ a.keys.length := by
    have := h.1
    simp only [beq_iff_eq, ObjEntries.length_eq_keys_length] at this
    omega
  have hperm : List.Perm a.keys b.keys :=
    (List.subperm_of_subset
      ((ObjEntries.nodupKeys_iff_keys_nodup a).mp hnda) hsub).perm_of_length_le hlen
  intro k
  cases ha : a.get k with
  | some v =>
    obtain ⟨w, hw, hvw⟩ := veqEntries_get a b h.2 k v ha
    rw [hw]
    exact hvw
  | none =>
    have hb : b.get k = none := by
      rw [ObjEntries.get_eq_none_iff_not_mem_keys] at ha ⊢
      exact fun hm => ha (hperm.mem_iff.mpr hm)
    rw [hb]
    trivial

mutual

/-- New values containing no Null object member, outside arrays: diffs of
such values survive a merge intact, since no entry of a patch built from
them is mistaken for a deletion marker.  Arrays are not entered because
both the differ and the merger treat arrays atomically. -/
def noNulls : Value → Bool
  | .obj m => noNullsEntries m
  | _ => true

/-- No entry of the object is Null, recursively. -/
def noNullsEntries : ObjEntries → Bool
  | .nil => true
  | .cons _ v t => !v.isNull && noNulls v && noNullsEntries t

end

theorem noNullsEntries_get (m : ObjEntries) (k : String) (v : Value)
    (h : noNullsEntries m = true) (hg : m.get k = some v) :
    v.isNull = false ∧ noNulls v = true := by
  induction m with
  | nil => cases hg
  | cons k' v' t ih =>
    simp only [noNullsEntries, Bool.and_eq_true, Bool.not_eq_true'] at h
    by_cases hk : k' = k
    · rw [ObjEntries.get_cons, if_pos hk] at hg
      cases hg
      exact ⟨h.1.1, h.1.2⟩
    · rw [ObjEntries.get_cons, if_neg hk] at hg
      exact ih h.2 hg

theorem merge_patch_not_obj_target (t : Value) (pm : ObjEntries)
    (ht : t.isObj = false) :
    ApplyPatch.merge_patch t (.obj pm) =
      .obj (ApplyPatch.merge_entries .nil pm) := by
  cases t with
  | obj tm => simp [Value.isObj] at ht
  | null => rfl
  | bool b => rfl
  | num n => rfl
  | str s => rfl
  | arr xs => rfl

mutual

/-- Merging a well-formed patch without Null object members into a
non-object target reproduces the patch itself: the coercion to the empty
object followed by entrywise merging loses nothing. -/
theorem merge_clone : ∀ pv : Value, WF pv = true → noNulls pv = true →
    ∀ t : Value, t.isObj = false →
    veq (ApplyPatch.merge_patch t pv) pv = true
  | .null, h, _, _, _ => veq_refl .null h
  | .bool b, h, _, _, _ => veq_refl (.bool b) h
  | .num n, h, _, _, _ => veq_refl (.num n) h
  | .str s, h, _, _, _ => veq_refl (.str s) h
  | .arr xs, h, _, _, _ => veq_refl (.arr xs) h
  | .obj pm, h, hn, t, ht => by
    rw [merge_patch_not_obj_target t pm ht]
    simp only [WF, Bool.and_eq_true] at h
    simp only [noNulls] at hn
    refine veq_obj_of_lookup _ _
      (ApplyPatch.merge_entries_nodupKeys _ _ rfl) h.1 ?_
    intro k
    cases hget : pm.get k with
    | none =>
      rw [ApplyPatch.merge_entries_get_frame _ _ _ hget]
      exact trivial
    | some w =>
      obtain ⟨hwn, hwnn⟩ := noNullsEntries_get pm k w hn hget
      rw [ApplyPatch.merge_entries_get_some _ _ _ _ h.1 hget hwn]
      show veq (ApplyPatch.merge_patch
        ((ObjEntries.get k ObjEntries.nil).getD .null) w) w = true
      exact merge_cloneEntries pm h.2 hn k w hget .null rfl

/-- Entry-list companion of merge_clone, giving the statement for every
value stored in the list. -/
theorem merge_cloneEntries : ∀ pm : ObjEntries, WFEntries pm = true →
    noNullsEntries pm = true → ∀ (k : String) (w : Value),
    pm.get k = some w → ∀ t : Value, t.isObj = false →
    veq (ApplyPatch.merge_patch t w) w = true
  | .nil, _, _, _, _, hg, _, _ => by cases hg
  | .cons k' v tl, h, hn, k, w, hg, t, ht => by
    simp only [WFEntries, Bool.and_eq_true] at h
    simp only [noNullsEntries, Bool.and_eq_true, Bool.not_eq_true'] at hn
    by_cases hk : k' = k
    · rw [ObjEntries.get_cons, if_pos hk] at hg
      cases hg
      exact merge_clone v h.1 hn.1.2 t ht
    · rw [ObjEntries.get_cons, if_neg hk] at hg
      exact merge_cloneEntries tl h.2 hn.2 k w hg t ht

end

theorem compute_diff_obj (om nm : ObjEntries) (forced : List String)
    (p : String) :
    compute_diff (some (.obj om)) (.obj nm) forced p =
      if ((diffNewEntries om nm forced p).append (delMarkers om nm)).isEmpty
      then none
      else some (.obj ((diffNewEntries om nm forced p).append
        (delMarkers om nm))) := rfl

theorem compute_diff_none_old (new : Value) (forced : List String)
    (p : String) : compute_diff none new forced p = some new := by
  cases new <;> rfl

theorem compute_diff_atomic_of_new (old : Option Value) (new : Value)
    (forced : List String) (p : String) (h : new.isObj = false) :
    compute_diff old new forced p =
      if veqOpt old new && !(forced.contains p) then none else some new := by
  cases old with
  | none => cases new <;> first | rfl | simp [Value.isObj] at h
  | some v => cases v <;> cases new <;> first | rfl | simp [Value.isObj] at h

theorem compute_diff_atomic_of_old (ov new : Value) (forced : List String)
    (p : String) (h : ov.isObj = false) :
    compute_diff (some ov) new forced p =
      if veqOpt (some ov) new && !(forced.contains p) then none
      else some new := by
  cases ov <;> cases new <;> first | rfl | simp [Value.isObj] at h

theorem veq_not_obj_left (ov : Value) (nm : ObjEntries)
    (h : ov.isObj = false) : veq ov (.obj nm) = false := by
  cases ov <;> first | rfl | simp [Value.isObj] at h

/-- compute_diff either hits the object-vs-object branch or behaves
atomically. -/
theorem compute_diff_eq_atomic_or (old : Option Value) (new : Value)
    (forced : List String) (p : String) :
    (∃ om nm, old = some (.obj om) ∧ new = .obj nm) ∨
    compute_diff old new forced p =
      if veqOpt old new && !(forced.contains p) then none else some new := by
  rw [compute_diff.eq_def]
  split
  · next om nm => exact Or.inl ⟨om, nm, rfl, rfl⟩
  · exact Or.inr rfl

/-- Every some-result of compute_diff is an object or the new value
itself. -/
theorem compute_diff_some_shape (old : Option Value) (new : Value)
    (forced : List String) (p : String) (d : Value)
    (h : compute_diff old new forced p = some d) :
    (∃ dm, d = .obj dm) ∨ d = new := by
  rcases compute_diff_eq_atomic_or old new forced p with ⟨om, nm, ho, hn⟩ | ha
  · subst ho
    subst hn
    rw [compute_diff_obj] at h
    by_cases he :
        ((diffNewEntries om nm forced p).append (delMarkers om nm)).isEmpty
    · rw [if_pos he] at h
      cases h
    · rw [if_neg he] at h
      cases h
      exact Or.inl ⟨_, rfl⟩
  · rw [ha] at h
    by_cases hc : (veqOpt old new && !(forced.contains p)) = true
    · rw [if_pos hc] at h
      cases h
    · rw [if_neg hc] at h
      cases h
      exact Or.inr rfl

theorem diffNewEntries_cons (om : ObjEntries) (k : String) (nv : Value)
    (rest : ObjEntries) (forced : List String) (p : String) :
    diffNewEntries om (.cons k nv rest) forced p =
      match compute_diff (om.get k) nv forced (childPath p k) with
      | some dv => .cons k dv (diffNewEntries om rest forced p)
      | none =>
        if forced.contains (childPath p k) then
          .cons k nv (diffNewEntries om rest forced p)
        else diffNewEntries om rest forced p := rfl

/-- A key not occurring in new never occurs in the first diff loop. -/
theorem diffNewEntries_get_absent (om nm : ObjEntries) (forced : List String)
    (p k : String) (h : nm.get k = none) :
    (diffNewEntries om nm forced p).get k = none := by
  induction nm with
  | nil => rfl
  | cons k' nv rest ih =>
    have hne : ¬ k' = k := by
      intro hc
      rw [ObjEntries.get_cons, if_pos hc] at h
      cases h
    have hr : rest.get k = none := by
      rwa [ObjEntries.get_cons, if_neg hne] at h
    rw [diffNewEntries_cons]
    cases compute_diff (om.get k') nv forced (childPath p k') with
    | some dv => rw [ObjEntries.get_cons, if_neg hne]; exact ih hr
    | none =>
      by_cases hf : forced.contains (childPath p k')
      · rw [if_pos hf, ObjEntries.get_cons, if_neg hne]
        exact ih hr
      · rw [if_neg hf]
        exact ih hr

/-- A key of new whose recursive diff yields a value appears in the first
loop with that value. -/
theorem diffNewEntries_get_some (om nm : ObjEntries) (forced : List String)
    (p k : String) (nv dv : Value) (hnd : nm.nodupKeys = true)
    (hg : nm.get k = some nv)
    (hd : compute_diff (om.get k) nv forced (childPath p k) = some dv) :
    (diffNewEntries om nm forced p).get k = some dv := by
  induction nm with
  | nil => cases hg
  | cons k' nv' rest ih =>
    simp only [ObjEntries.nodupKeys, Bool.and_eq_true,
      Bool.not_eq_true'] at hnd
    rw [diffNewEntries_cons]
    by_cases hk : k' = k
    · subst hk
      rw [ObjEntries.get_cons, if_pos rfl] at hg
      have : nv' = nv := by cases hg; rfl
      subst this
      rw [hd, ObjEntries.get_cons, if_pos rfl]
    · rw [ObjEntries.get_cons, if_neg hk] at hg
      cases compute_diff (om.get k') nv' forced (childPath p k') with
      | some dv' =>
        rw [ObjEntries.get_cons, if_neg hk]
        exact ih hnd.2 hg
      | none =>
        by_cases hf : forced.contains (childPath p k')
        · rw [if_pos hf, ObjEntries.get_cons, if_neg hk]
          exact ih hnd.2 hg
        · rw [if_neg hf]
          exact ih hnd.2 hg

/-- A key of new with no recursive diff and an unforced path is skipped by
the first loop. -/
theorem diffNewEntries_get_skip (om nm : ObjEntries) (forced : List String)
    (p k : String) (nv : Value) (hnd : nm.nodupKeys = true)
    (hg : nm.get k = some nv)
    (hd : compute_diff (om.get k) nv forced (childPath p k) = none)
    (hf : forced.contains (childPath p k) = false) :
    (diffNewEntries om nm forced p).get k = none := by
  induction nm with
  | nil => cases hg
  | cons k' nv' rest ih =>
    simp only [ObjEntries.nodupKeys, Bool.and_eq_true,
      Bool.not_eq_true'] at hnd
    rw [diffNewEntries_cons]
    by_cases hk : k' = k
    · subst hk
      rw [ObjEntries.get_cons, if_pos rfl] at hg
      have : nv' = nv := by cases hg; rfl
      subst this
      rw [hd, if_neg (by rw [hf]; simp)]
      refine diffNewEntries_get_absent om rest forced p k' ?_
      have h1 := hnd.1
      simp only [ObjEntries.containsKey] at h1
      exact Option.not_isSome_iff_eq_none.mp (by simp [h1])
    · rw [ObjEntries.get_cons, if_neg hk] at hg
      cases compute_diff (om.get k') nv' forced (childPath p k') with
      | some dv' =>
        rw [ObjEntries.get_cons, if_neg hk]
        exact ih hnd.2 hg
      | none =>
        by_cases hf' : forced.contains (childPath p k')
        · rw [if_pos hf', ObjEntries.get_cons, if_neg hk]
          exact ih hnd.2 hg
        · rw [if_neg hf']
          exact ih hnd.2 hg

/-- A key of new with no recursive diff but a forced path appears in the
first loop with the new value verbatim. -/
theorem diffNewEntries_get_forced (om nm : ObjEntries) (forced : List String)
    (p k : String) (nv : Value) (hnd : nm.nodupKeys = true)
    (hg : nm.get k = some nv)
    (hd : compute_diff (om.get k) nv forced (childPath p k) = none)
    (hf : forced.contains (childPath p k) = true) :
    (diffNewEntries om nm forced p).get k = some nv := by
  induction nm with
  | nil => cases hg
  | cons k' nv' rest ih =>
    simp only [ObjEntries.nodupKeys, Bool.and_eq_true,
      Bool.not_eq_true'] at hnd
    rw [diffNewEntries_cons]
    by_cases hk : k' = k
    · subst hk
      rw [ObjEntries.get_cons, if_pos rfl] at hg
      have : nv' = nv := by cases hg; rfl
      subst this
      rw [hd, if_pos hf, ObjEntries.get_cons, if_pos rfl]
    · rw [ObjEntries.get_cons, if_neg hk] at hg
      cases compute_diff (om.get k') nv' forced (childPath p k') with
      | some dv' =>
        rw [ObjEntries.get_cons, if_neg hk]
        exact ih hnd.2 hg
      | none =>
        by_cases hf' : forced.contains (childPath p k')
        · rw [if_pos hf', ObjEntries.get_cons, if_neg hk]
          exact ih hnd.2 hg
        · rw [if_neg hf']
          exact ih hnd.2 hg

/-- The keys of the first diff loop form a subsequence of the keys of new
(new-tree traversal order). -/
theorem diffNewEntries_keys_sublist (om nm : ObjEntries)
    (forced : List String) (p : String) :
    (diffNewEntries om nm forced p).keys.Sublist nm.keys := by
  induction nm with
  | nil => exact List.Sublist.refl _
  | cons k' nv rest ih =>
    rw [diffNewEntries_cons]
    cases compute_diff (om.get k') nv forced (childPath p k') with
    | some dv =>
      simpa [ObjEntries.keys] using List.Sublist.cons₂ k' ih
    | none =>
      by_cases hf : forced.contains (childPath p k')
      · rw [if_pos hf]
        simpa [ObjEntries.keys] using List.Sublist.cons₂ k' ih
      · rw [if_neg hf]
        simpa [ObjEntries.keys] using List.Sublist.cons k' ih

/-- An empty first loop means every entry of new diffed to nothing and was
not forced. -/
theorem diffNewEntries_eq_nil (om nm : ObjEntries) (forced : List String)
    (p : String) (h : diffNewEntries om nm forced p = .nil) :
    ∀ k nv, nm.get k = some nv →
      compute_diff (om.get k) nv forced (childPath p k) = none ∧
      forced.contains (childPath p k) = false := by
  induction nm with
  | nil => intro k nv hg; cases hg
  | cons k' nv' rest ih =>
    rw [diffNewEntries_cons] at h
    intro k nv hg
    cases hd : compute_diff (om.get k') nv' forced (childPath p k') with
    | some dv => rw [hd] at h; cases h
    | none =>
      rw [hd] at h
      by_cases hf : forced.contains (childPath p k')
      · rw [if_pos hf] at h
        cases h
      · rw [if_neg hf] at h
        by_cases hk : k' = k
        · subst hk
          rw [ObjEntries.get_cons, if_pos rfl] at hg
          have : nv' = nv := by cases hg; rfl
          subst this
          exact ⟨hd, by simpa using hf⟩
        · rw [ObjEntries.get_cons, if_neg hk] at hg
          exact ih h k nv hg

/-- Converse of diffNewEntries_eq_nil, for unique keys. -/
theorem diffNewEntries_eq_nil_of (om nm : ObjEntries) (forced : List String)
    (p : String) (hnd : nm.nodupKeys = true)
    (h : ∀ k nv, nm.get k = some nv →
      compute_diff (om.get k) nv forced (childPath p k) = none ∧
      forced.contains (childPath p k) = false) :
    diffNewEntries om nm forced p = .nil := by
  induction nm with
  | nil => rfl
  | cons k' nv' rest ih =>
    simp only [ObjEntries.nodupKeys, Bool.and_eq_true,
      Bool.not_eq_true'] at hnd
    rw [diffNewEntries_cons]
    obtain ⟨hd, hf⟩ := h k' nv' (by rw [ObjEntries.get_cons, if_pos rfl])
    rw [hd, if_neg (by rw [hf]; simp)]
    refine ih hnd.2 ?_
    intro k nv hg
    by_cases hk : k' = k
    · subst hk
      have hs : (rest.get k').isSome = true := by simp [hg]
      have h1 := hnd.1
      simp only [ObjEntries.containsKey] at h1
      rw [h1] at hs
      cases hs
    · refine h k nv ?_
      rw [ObjEntries.get_cons, if_neg hk]
      exact hg

/-- A key of old absent from new yields a Null deletion marker. -/
theorem delMarkers_get_some (om nm : ObjEntries) (k : String)
    (hc : om.containsKey k = true) (hn : nm.containsKey k = false) :
    (delMarkers om nm).get k = some .null := by
  induction om with
  | nil => simp [ObjEntries.containsKey] at hc
  | cons k' v t ih =>
    simp only [delMarkers]
    by_cases hk : k' = k
    · subst hk
      rw [if_neg (by simp [hn]), ObjEntries.get_cons, if_pos rfl]
    · simp only [ObjEntries.containsKey, ObjEntries.get_cons,
        if_neg hk] at hc
      by_cases hck : nm.containsKey k'
      · rw [if_pos hck]
        exact ih hc
      · rw [if_neg hck, ObjEntries.get_cons, if_neg hk]
        exact ih hc

/-- No deletion marker is emitted for a key still present in new. -/
theorem delMarkers_get_none_of_mem_nm (om nm : ObjEntries) (k : String)
    (hc : nm.containsKey k = true) : (delMarkers om nm).get k = none := by
  induction om with
  | nil => rfl
  | cons k' v t ih =>
    simp only [delMarkers]
    by_cases hck : nm.containsKey k'
    · rw [if_pos hck]
      exact ih
    · rw [if_neg hck, ObjEntries.get_cons]
      have hk : ¬ k' = k := by
        intro hc'
        subst hc'
        exact absurd hc (by simp [hck])
      rw [if_neg hk]
      exact ih

/-- No deletion marker is emitted for a key absent from old. -/
theorem delMarkers_get_none_of_absent (om nm : ObjEntries) (k : String)
    (h : om.get k = none) : (delMarkers om nm).get k = none := by
  induction om with
  | nil => rfl
  | cons k' v t ih =>
    have hk : ¬ k' = k := by
      intro hc
      rw [ObjEntries.get_cons, if_pos hc] at h
      cases h
    have ht : t.get k = none := by
      rwa [ObjEntries.get_cons, if_neg hk] at h
    simp only [delMarkers]
    by_cases hck : nm.containsKey k'
    · rw [if_pos hck]
      exact ih ht
    · rw [if_neg hck, ObjEntries.get_cons, if_neg hk]
      exact ih ht

/-- The deletion markers are exactly the keys of old absent from new, in
old order, each mapped to Null. -/
theorem delMarkers_keys (om nm : ObjEntries) :
    (delMarkers om nm).keys =
      om.keys.filter (fun k => !(nm.containsKey k)) := by
  induction om with
  | nil => rfl
  | cons k' v t ih =>
    simp only [delMarkers, ObjEntries.keys, List.filter]
    by_cases hck : nm.containsKey k'
    · simp [hck, ih]
    · simp [hck, ObjEntries.keys, ih]

/-- Every deletion marker value is Null. -/
theorem delMarkers_values_null (om nm : ObjEntries) (k : String) (v : Value)
    (h : (delMarkers om nm).get k = some v) : v = .null := by
  induction om with
  | nil => cases h
  | cons k' w t ih =>
    simp only [delMarkers] at h
    by_cases hck : nm.containsKey k'
    · rw [if_pos hck] at h
      exact ih h
    · rw [if_neg hck, ObjEntries.get_cons] at h
      by_cases hk : k' = k
      · rw [if_pos hk] at h
        cases h
        rfl
      · rw [if_neg hk] at h
        exact ih h

/-- An empty marker list means every key of old is still in new. -/
theorem delMarkers_eq_nil (om nm : ObjEntries)
    (h : delMarkers om nm = .nil) :
    ∀ k, om.containsKey k = true → nm.containsKey k = true := by
  induction om with
  | nil => intro k hk; simp [ObjEntries.containsKey] at hk
  | cons k' v t ih =>
    simp only [delMarkers] at h
    intro k hk
    by_cases hck : nm.containsKey k'
    · rw [if_pos hck] at h
      by_cases hkk : k' = k
      · subst hkk
        exact hck
      · simp only [ObjEntries.containsKey, ObjEntries.get_cons,
          if_neg hkk] at hk
        exact ih h k hk
    · rw [if_neg hck] at h
      cases h

/-- Converse of delMarkers_eq_nil. -/
theorem delMarkers_eq_nil_of (om nm : ObjEntries)
    (h : ∀ k, om.containsKey k = true → nm.containsKey k = true) :
    delMarkers om nm = .nil := by
  induction om with
  | nil => rfl
  | cons k' v t ih =>
    simp only [delMarkers]
    have hck : nm.containsKey k' = true := by
      refine h k' ?_
      simp [ObjEntries.containsKey, ObjEntries.get_cons]
    rw [if_pos hck]
    refine ih ?_
    intro k hk
    by_cases hkk : k' = k
    · subst hkk
      exact hck
    · refine h k ?_
      simp only [ObjEntries.containsKey, ObjEntries.get_cons, if_neg hkk]
      exact hk

/-- The emitted diff object has unique keys whenever old and new do. -/
theorem dm_nodupKeys (om nm : ObjEntries) (forced : List String) (p : String)
    (hndo : om.nodupKeys = true) (hndn : nm.nodupKeys = true) :
    ((diffNewEntries om nm forced p).append
      (delMarkers om nm)).nodupKeys = true := by
  rw [ObjEntries.nodupKeys_iff_keys_nodup, ObjEntries.keys_append,
    List.nodup_append]
  refine ⟨?_, ?_, ?_⟩
  · exact ((ObjEntries.nodupKeys_iff_keys_nodup nm).mp hndn).sublist
      (diffNewEntries_keys_sublist om nm forced p)
  · rw [delMarkers_keys]
    exact List.Nodup.filter _ ((ObjEntries.nodupKeys_iff_keys_nodup om).mp hndo)
  · intro k hk1 hk2
    rw [delMarkers_keys] at hk2
    have h2 := List.of_mem_filter hk2
    have h1 : k ∈ nm.keys :=
      (diffNewEntries_keys_sublist om nm forced p).subset hk1
    rw [← ObjEntries.get_isSome_iff_mem_keys] at h1
    simp only [Bool.not_eq_true'] at h2
    simp only [ObjEntries.containsKey] at h2
    rw [h2] at h1
    cases h1

/-- Round-trip property of a value in new position: with the empty forced
set, a none diff against it certifies equality, and merging a some diff
onto the old value it was computed from reproduces it. -/
def RTP (new : Value) : Prop :=
  WF new = true → noNulls new = true → ∀ (old : Value) (p : String),
    WF old = true →
    (compute_diff (some old) new [] p = none → veq old new = true) ∧
    (∀ d, compute_diff (some old) new [] p = some d →
      veq (ApplyPatch.merge_patch old d) new = true)

/-- RTP for non-object new values: the atomic branch of the differ. -/
theorem rt_not_obj (new : Value) (hno : new.isObj = false) : RTP new := by
  intro hwf _ old p _
  have heq := compute_diff_atomic_of_new (some old) new [] p hno
  have hcond : (veqOpt (some old) new && !(([] : List String).contains p)) =
      veq old new := by
    simp [veqOpt]
  rw [hcond] at heq
  constructor
  · intro hnone
    by_cases hv : veq old new = true
    · exact hv
    · rw [heq, if_neg hv] at hnone
      cases hnone
  · intro d hd
    rw [heq] at hd
    by_cases hv : veq old new = true
    · rw [if_pos hv] at hd
      cases hd
    · rw [if_neg hv] at hd
      cases hd
      have hme : ApplyPatch.merge_patch old new = new := by
        cases new <;> first | rfl | simp [Value.isObj] at hno
      rw [hme]
      exact veq_refl new hwf

/-- RTP clauses for an object new against a non-object old: the atomic
branch emits new wholesale, and merging coerces old away. -/
theorem rt_atomic_old (old : Value) (nm : ObjEntries) (p : String)
    (hno : old.isObj = false) (hwf : WF (.obj nm) = true)
    (hnn : noNulls (.obj nm) = true) :
    (compute_diff (some old) (.obj nm) [] p = none →
      veq old (.obj nm) = true) ∧
    (∀ d, compute_diff (some old) (.obj nm) [] p = some d →
      veq (ApplyPatch.merge_patch old d) (.obj nm) = true) := by
  have heq := compute_diff_atomic_of_old old (.obj nm) [] p hno
  have hcond : (veqOpt (some old) (.obj nm) &&
      !(([] : List String).contains p)) = false := by
    simp [veqOpt, veq_not_obj_left old nm hno]
  rw [hcond, if_neg (by simp)] at heq
  constructor
  · intro hnone
    rw [heq] at hnone
    cases hnone
  · intro d hd
    rw [heq] at hd
    cases hd
    exact merge_clone (.obj nm) hwf hnn old hno

/-- RTP clauses for the object-vs-object branch, given the round-trip
property of every value stored in new. -/
theorem rt_obj_obj (nm om : ObjEntries) (p : String)
    (hIH : ∀ k nv, nm.get k = some nv → RTP nv)
    (hndn : nm.nodupKeys = true) (hwfn : WFEntries nm = true)
    (hnn : noNullsEntries nm = true)
    (hndo : om.nodupKeys = true) (hwfo : WFEntries om = true) :
    (compute_diff (some (.obj om)) (.obj nm) [] p = none →
      veq (.obj om) (.obj nm) = true) ∧
    (∀ d, compute_diff (some (.obj om)) (.obj nm) [] p = some d →
      veq (ApplyPatch.merge_patch (.obj om) d) (.obj nm) = true) := by
  have hcd := compute_diff_obj om nm [] p
  constructor
  · intro hnone
    rw [hcd] at hnone
    by_cases he : ((diffNewEntries om nm [] p).append
        (delMarkers om nm)).isEmpty = true
    · rw [ObjEntries.isEmpty_append, Bool.and_eq_true] at he
      have hdn : diffNewEntries om nm [] p = .nil :=
        (ObjEntries.isEmpty_eq_true_iff _).mp he.1
      have hmk : delMarkers om nm = .nil :=
        (ObjEntries.isEmpty_eq_true_iff _).mp he.2
      refine veq_obj_of_lookup om nm hndo hndn ?_
      intro k
      cases hnm : nm.get k with
      | some nv =>
        obtain ⟨hsub, _⟩ := diffNewEntries_eq_nil om nm [] p hdn k nv hnm
        cases hom : om.get k with
        | none =>
          rw [hom, compute_diff_none_old] at hsub
          cases hsub
        | some ov =>
          rw [hom] at hsub
          have hrtp := hIH k nv hnm (WFEntries_get nm k nv hwfn hnm)
            (noNullsEntries_get nm k nv hnn hnm).2 ov (childPath p k)
            (WFEntries_get om k ov hwfo hom)
          exact hrtp.1 hsub
      | none =>
        cases hom : om.get k with
        | none => trivial
        | some ov =>
          have hmks := delMarkers_get_some om nm k
            (by simp [ObjEntries.containsKey, hom])
            (by simp [ObjEntries.containsKey, hnm])
          rw [hmk] at hmks
          cases hmks
    · rw [if_neg he] at hnone
      cases hnone
  · intro d hd
    rw [hcd] at hd
    by_cases he : ((diffNewEntries om nm [] p).append
        (delMarkers om nm)).isEmpty = true
    · rw [if_pos he] at hd
      cases hd
    · rw [if_neg he] at hd
      cases hd
      have hnddm := dm_nodupKeys om nm [] p hndo hndn
      show veq (.obj (ApplyPatch.merge_entries om
        ((diffNewEntries om nm [] p).append (delMarkers om nm))))
        (.obj nm) = true
      refine veq_obj_of_lookup _ nm
        (ApplyPatch.merge_entries_nodupKeys om _ hndo) hndn ?_
      intro k
      cases hnm : nm.get k with
      | some nv =>
        have hwfnv := WFEntries_get nm k nv hwfn hnm
        obtain ⟨hnvnull, hnvnn⟩ := noNullsEntries_get nm k nv hnn hnm
        cases hsub : compute_diff (om.get k) nv [] (childPath p k) with
        | some dv =>
          have hdng := diffNewEntries_get_some om nm [] p k nv dv hndn hnm hsub
          have hdmg : ((diffNewEntries om nm [] p).append
              (delMarkers om nm)).get k = some dv := by
            rw [ObjEntries.get_append, hdng]
            simp
          have hdvnull : dv.isNull = false := by
            rcases compute_diff_some_shape _ _ _ _ _ hsub with ⟨dmm, hdm⟩ | hdm
            · rw [hdm]
              rfl
            · rw [hdm]
              exact hnvnull
          rw [ApplyPatch.merge_entries_get_some om _ k dv hnddm hdmg hdvnull]
          show veq (ApplyPatch.merge_patch ((om.get k).getD .null) dv) nv = true
          cases hom : om.get k with
          | some ov =>
            rw [hom] at hsub
            rw [Option.getD_some]
            have hrtp := hIH k nv hnm hwfnv hnvnn ov (childPath p k)
              (WFEntries_get om k ov hwfo hom)
            exact hrtp.2 dv hsub
          | none =>
            rw [hom, compute_diff_none_old] at hsub
            cases hsub
            rw [Option.getD_none]
            exact merge_clone nv hwfnv hnvnn .null rfl
        | none =>
          have hdng := diffNewEntries_get_skip om nm [] p k nv hndn hnm hsub rfl
          have hmkg := delMarkers_get_none_of_mem_nm om nm k
            (by simp [ObjEntries.containsKey, hnm])
          have hdmg : ((diffNewEntries om nm [] p).append
              (delMarkers om nm)).get k = none := by
            rw [ObjEntries.get_append, hdng, hmkg]
            simp
          rw [ApplyPatch.merge_entries_get_frame om _ k hdmg]
          cases hom : om.get k with
          | none =>
            rw [hom, compute_diff_none_old] at hsub
            cases hsub
          | some ov =>
            rw [hom] at hsub
            have hrtp := hIH k nv hnm hwfnv hnvnn ov (childPath p k)
              (WFEntries_get om k ov hwfo hom)
            exact hrtp.1 hsub
      | none =>
        have hdng := diffNewEntries_get_absent om nm [] p k hnm
        cases hom : om.get k with
        | none =>
          have hmkg := delMarkers_get_none_of_absent om nm k hom
          have hdmg : ((diffNewEntries om nm [] p).append
              (delMarkers om nm)).get k = none := by
            rw [ObjEntries.get_append, hdng, hmkg]
            simp
          rw [ApplyPatch.merge_entries_get_frame om _ k hdmg, hom]
          trivial
        | some ov =>
          have hmkg := delMarkers_get_some om nm k
            (by simp [ObjEntries.containsKey, hom])
            (by simp [ObjEntries.containsKey, hnm])
          have hdmg : ((diffNewEntries om nm [] p).append
              (delMarkers om nm)).get k = some .null := by
            rw [ObjEntries.get_append, hdng, hmkg]
            simp
          rw [ApplyPatch.merge_entries_get_null om _ k hndo hnddm hdmg]
          trivial

/-- RTP for an object new, dispatching on the shape of old. -/
theorem rt_obj (nm : ObjEntries)
    (hIH : ∀ k nv, nm.get k = some nv → RTP nv) : RTP (.obj nm) := by
  intro hwf hnn old p hold
  cases old with
  | obj om =>
    have hwf' : nm.nodupKeys = true ∧ WFEntries nm = true := by
      simpa [WF, Bool.and_eq_true] using hwf
    have hold' : om.nodupKeys = true ∧ WFEntries om = true := by
      simpa [WF, Bool.and_eq_true] using hold
    exact rt_obj_obj nm om p hIH hwf'.1 hwf'.2
      (by simpa [noNulls] using hnn) hold'.1 hold'.2
  | null => exact rt_atomic_old .null nm p rfl hwf hnn
  | bool b => exact rt_atomic_old (.bool b) nm p rfl hwf hnn
  | num n => exact rt_atomic_old (.num n) nm p rfl hwf hnn
  | str s => exact rt_atomic_old (.str s) nm p rfl hwf hnn
  | arr xs => exact rt_atomic_old (.arr xs) nm p rfl hwf hnn

mutual

/-- Every value has the round-trip property. -/
theorem rt_value : ∀ new : Value, RTP new
  | .null => rt_not_obj .null rfl
  | .bool b => rt_not_obj (.bool b) rfl
  | .num n => rt_not_obj (.num n) rfl
  | .str s => rt_not_obj (.str s) rfl
  | .arr xs => rt_not_obj (.arr xs) rfl
  | .obj nm => rt_obj nm (rt_entries nm)

/-- Every value stored in an entry list has the round-trip property. -/
theorem rt_entries : ∀ nm : ObjEntries, ∀ (k : String) (nv : Value),
    nm.get k = some nv → RTP nv
  | .nil => fun _ _ hg => absurd hg (by simp)
  | .cons k' v tl => fun k nv hg => by
    by_cases hk : k' = k
    · rw [ObjEntries.get_cons, if_pos hk] at hg
      have hv : v = nv := by cases hg; rfl
      exact hv ▸ rt_value v
    · rw [ObjEntries.get_cons, if_neg hk] at hg
      exact rt_entries tl k nv hg

end

/-- d lies at or below p in the dot-joined path tree (everything lies
below the empty root path). -/
def pathBelow (p d : String) : Prop :=
  p = "" ∨ d = p ∨ ∃ s, d = p ++ "." ++ s

theorem pathBelow_refl (p : String) : pathBelow p p :=
  Or.inr (Or.inl rfl)

theorem pathBelow_self_child (p k : String) :
    pathBelow p (childPath p k) := by
  by_cases hp : p = ""
  · exact Or.inl hp
  · exact Or.inr (Or.inr ⟨k, by rw [childPath, if_neg hp]⟩)

theorem pathBelow_child (p k d : String)
    (h : pathBelow (childPath p k) d) : pathBelow p d := by
  by_cases hp : p = ""
  · exact Or.inl hp
  · rcases h with hc | hd | ⟨s, hs⟩
    · rw [childPath, if_neg hp] at hc
      exfalso
      have := congrArg String.length hc
      simp [String.length_append] at this
      have h2 := this.1.2
      have h3 : ".".length = 1 := rfl
      omega
    · rw [childPath, if_neg hp] at hd
      exact Or.inr (Or.inr ⟨k, hd⟩)
    · rw [childPath, if_neg hp] at hs
      refine Or.inr (Or.inr ⟨k ++ "." ++ s, ?_⟩)
      rw [hs]
      simp [String.append_assoc]

/-- Diff-vanishing property of a value in new position: diffing any equal
old value against it returns none, as long as no forced path sits at or
below the current path. -/
def DNP (v : Value) : Prop :=
  WF v = true → ∀ w : Value, WF w = true → veq w v = true →
  ∀ (forced : List String) (p : String),
    (∀ d, pathBelow p d → forced.contains d = false) →
    compute_diff (some w) v forced p = none

/-- DNP for non-object new values: the atomic equality check fires. -/
theorem dnp_not_obj (v : Value) (hno : v.isObj = false) : DNP v := by
  intro _ w _ hveq forced p hf
  rw [compute_diff_atomic_of_new (some w) v forced p hno, if_pos ?_]
  have hc := hf p (pathBelow_refl p)
  simp only [veqOpt, hc, Bool.not_false, Bool.and_true]
  exact hveq

/-- The object-vs-object branch of the differ vanishes on equal objects
when no forced path lies strictly below the current path (the current path
itself is never consulted in this branch), given the diff-vanishing
property of the values stored in new. -/
theorem dn_obj_branch (nm : ObjEntries)
    (hIH : ∀ k nv, nm.get k = some nv → DNP nv) (om : ObjEntries)
    (forced : List String) (p : String)
    (hwfw : WF (.obj om) = true) (hwfv : WF (.obj nm) = true)
    (hveq : veq (.obj om) (.obj nm) = true)
    (hf : ∀ k d, pathBelow (childPath p k) d → forced.contains d = false) :
    compute_diff (some (.obj om)) (.obj nm) forced p = none := by
  have hwf' : nm.nodupKeys = true ∧ WFEntries nm = true := by
    simpa [WF, Bool.and_eq_true] using hwfv
  have hwo' : om.nodupKeys = true ∧ WFEntries om = true := by
    simpa [WF, Bool.and_eq_true] using hwfw
  have hlook := veq_obj_get om nm hwo'.1 hwf'.1 hveq
  have hdn : diffNewEntries om nm forced p = .nil := by
    refine diffNewEntries_eq_nil_of om nm forced p hwf'.1 ?_
    intro k nv hnm
    have hl := hlook k
    rw [hnm] at hl
    cases hom : om.get k with
    | none =>
      rw [hom] at hl
      cases hl
    | some ov =>
      rw [hom] at hl
      constructor
      · exact hIH k nv hnm (WFEntries_get nm k nv hwf'.2 hnm) ov
          (WFEntries_get om k ov hwo'.2 hom) hl forced (childPath p k)
          (fun d hd => hf k d hd)
      · exact hf k (childPath p k) (pathBelow_refl _)
  have hmk : delMarkers om nm = .nil := by
    refine delMarkers_eq_nil_of om nm ?_
    intro k hk
    have hl := hlook k
    simp only [ObjEntries.containsKey] at hk ⊢
    cases hom : om.get k with
    | none => rw [hom] at hk; cases hk
    | some ov =>
      rw [hom] at hl
      cases hnm : nm.get k with
      | none => rw [hnm] at hl; cases hl
      | some nv => rfl
  rw [compute_diff_obj, hdn, hmk]
  rfl

/-- DNP for object new values, given the property of the stored values. -/
theorem dnp_obj (nm : ObjEntries)
    (hIH : ∀ k nv, nm.get k = some nv → DNP nv) : DNP (.obj nm) := by
  intro hwfv w hwfw hveq forced p hf
  cases w with
  | null => exact absurd hveq (by simp [veq_not_obj_left .null nm rfl])
  | bool b => exact absurd hveq (by simp [veq_not_obj_left (.bool b) nm rfl])
  | num n => exact absurd hveq (by simp [veq_not_obj_left (.num n) nm rfl])
  | str s => exact absurd hveq (by simp [veq_not_obj_left (.str s) nm rfl])
  | arr xs => exact absurd hveq (by simp [veq_not_obj_left (.arr xs) nm rfl])
  | obj om =>
    exact dn_obj_branch nm hIH om forced p hwfw hwfv hveq
      (fun k d hd => hf d (pathBelow_child p k d hd))

mutual

/-- Every value has the diff-vanishing property. -/
theorem dn_value : ∀ v : Value, DNP v
  | .null => dnp_not_obj .null rfl
  | .bool b => dnp_not_obj (.bool b) rfl
  | .num n => dnp_not_obj (.num n) rfl
  | .str s => dnp_not_obj (.str s) rfl
  | .arr xs => dnp_not_obj (.arr xs) rfl
  | .obj nm => dnp_obj nm (dn_entries nm)

/-- Every value stored in an entry list has the diff-vanishing
property. -/
theorem dn_entries : ∀ nm : ObjEntries, ∀ (k : String) (nv : Value),
    nm.get k = some nv → DNP nv
  | .nil => fun _ _ hg => absurd hg (by simp)
  | .cons k' v tl => fun k nv hg => by
    by_cases hk : k' = k
    · rw [ObjEntries.get_cons, if_pos hk] at hg
      have hv : v = nv := by cases hg; rfl
      exact hv ▸ dn_value v
    · rw [ObjEntries.get_cons, if_neg hk] at hg
      exact dn_entries tl k nv hg

end

/-- dn_obj_branch with the stored-value property discharged. -/
theorem dn_obj_branch_inst (om nm : ObjEntries) (forced : List String)
    (p : String) (hwfw : WF (.obj om) = true) (hwfv : WF (.obj nm) = true)
    (hveq : veq (.obj om) (.obj nm) = true)
    (hf : ∀ k d, pathBelow (childPath p k) d → forced.contains d = false) :
    compute_diff (some (.obj om)) (.obj nm) forced p = none :=
  dn_obj_branch nm (dn_entries nm) om forced p hwfw hwfv hveq hf

theorem ApplyPatchMut.merge_entries_cons_mut (tm : ObjEntries) (k : String)
    (pv : Value) (rest : ObjEntries) :
    ApplyPatchMut.merge_entries tm (.cons k pv rest) =
      if pv.isNull then ApplyPatchMut.merge_entries (tm.remove k) rest
      else ApplyPatchMut.merge_entries
        (tm.set k (ApplyPatchMut.merge_patch
          ((tm.get k).getD .null) pv)) rest := rfl

mutual

/-- The two textually separate private mergers compute the same
function. -/
theorem merge_patch_eq_aux : ∀ t q : Value,
    ApplyPatch.merge_patch t q = ApplyPatchMut.merge_patch t q
  | t, .null => rfl
  | t, .bool b => rfl
  | t, .num n => rfl
  | t, .str s => rfl
  | t, .arr xs => rfl
  | t, .obj pm => by
    cases t with
    | obj tm => exact congrArg Value.obj (merge_entries_eq_aux tm pm)
    | null => exact congrArg Value.obj (merge_entries_eq_aux .nil pm)
    | bool b => exact congrArg Value.obj (merge_entries_eq_aux .nil pm)
    | num n => exact congrArg Value.obj (merge_entries_eq_aux .nil pm)
    | str s => exact congrArg Value.obj (merge_entries_eq_aux .nil pm)
    | arr xs => exact congrArg Value.obj (merge_entries_eq_aux .nil pm)

/-- Entry-loop companion of merge_patch_eq_aux. -/
theorem merge_entries_eq_aux : ∀ tm pm : ObjEntries,
    ApplyPatch.merge_entries tm pm = ApplyPatchMut.merge_entries tm pm
  | tm, .nil => rfl
  | tm, .cons k pv rest => by
    rw [ApplyPatch.merge_entries_cons, ApplyPatchMut.merge_entries_cons_mut]
    by_cases hn : pv.isNull
    · rw [if_pos hn, if_pos hn]
      exact merge_entries_eq_aux (tm.remove k) rest
    · rw [if_neg hn, if_neg hn,
        merge_patch_eq_aux ((tm.get k).getD .null) pv]
      exact merge_entries_eq_aux _ rest

end

/-- C1, counterexample: the round-trip law fails at the tree level as
stated.  With the well-formed trees old = (k: 5) and new = (k: null) the
diff is (k: null), and merging it onto old deletes k instead of setting
it to null, so the merged tree is not deep-equal to new. -/
theorem c1_round_trip_counterexample :
    WF (.obj (.cons "k" (.num 5) .nil)) = true ∧
    WF (.obj (.cons "k" .null .nil)) = true ∧
    veq (ApplyPatch.merge_patch (.obj (.cons "k" (.num 5) .nil))
      (diffValue (.obj (.cons "k" (.num 5) .nil))
        (.obj (.cons "k" .null .nil))))
      (.obj (.cons "k" .null .nil)) = false := by
  decide

/-- C1, amended: for well-formed trees, if old is an Object (as every
serialized record is) and new has no Null object member outside arrays,
merging the patch produced by compute_diff with empty forced set and
empty path — unwrapped to the empty object as in diff — onto old yields
a tree deep-equal to new. -/
theorem c1_round_trip (old_val new_val : Value) (hwo : WF old_val = true)
    (hwn : WF new_val = true) (hobj : old_val.isObj = true)
    (hnn : noNulls new_val = true) :
    veq (ApplyPatch.merge_patch old_val (diffValue old_val new_val))
      new_val = true := by
  cases hd : compute_diff (some old_val) new_val [] "" with
  | none =>
    have hv := (rt_value new_val hwn hnn old_val "" hwo).1 hd
    cases old_val with
    | obj om =>
      rw [diffValue, hd]
      exact hv
    | null => simp [Value.isObj] at hobj
    | bool b => simp [Value.isObj] at hobj
    | num n => simp [Value.isObj] at hobj
    | str s => simp [Value.isObj] at hobj
    | arr xs => simp [Value.isObj] at hobj
  | some d =>
    have hv := (rt_value new_val hwn hnn old_val "" hwo).2 d hd
    rw [diffValue, hd]
    exact hv

/-- Witness for c1_round_trip at a concrete changed record. -/
theorem c1_round_trip_witness :
    veq (ApplyPatch.merge_patch (.obj (.cons "a" (.num 1) .nil))
      (diffValue (.obj (.cons "a" (.num 1) .nil))
        (.obj (.cons "a" (.num 2) .nil))))
      (.obj (.cons "a" (.num 2) .nil)) = true :=
  c1_round_trip _ _ (by decide) (by decide) (by decide) (by decide)

/-- C2, counterexample: merging the empty-object patch onto the
non-object base 5 does not leave it unchanged — the RFC 7396 coercion
turns the base into the empty object. -/
theorem c2_noop_counterexample :
    ApplyPatch.merge_patch (.num 5) (.obj .nil) = .obj .nil ∧
    veq (ApplyPatch.merge_patch (.num 5) (.obj .nil)) (.num 5) = false := by
  decide

/-- C2, amended: the empty patch is a no-op exactly on Object bases
(hence on every serialized record); any non-object base is coerced to the
empty object instead. -/
theorem c2_noop_merge :
    (∀ tm : ObjEntries,
      ApplyPatch.merge_patch (.obj tm) (.obj .nil) = .obj tm) ∧
    (∀ base : Value, base.isObj = false →
      ApplyPatch.merge_patch base (.obj .nil) = .obj .nil) := by
  constructor
  · intro tm
    rfl
  · intro base hb
    cases base <;> first | rfl | simp [Value.isObj] at hb

/-- Witness for c2_noop_merge on an object base and on a number base. -/
theorem c2_noop_merge_witness :
    ApplyPatch.merge_patch (.obj (.cons "a" (.num 1) .nil)) (.obj .nil) =
      .obj (.cons "a" (.num 1) .nil) ∧
    ApplyPatch.merge_patch (.num 7) (.obj .nil) = .obj .nil :=
  ⟨c2_noop_merge.1 _, c2_noop_merge.2 (.num 7) rfl⟩

/-- C3: merging an object patch first replaces a non-object target
wholesale with the empty object and only then merges the patch keys, so
the result of merging an object patch is always an Object. -/
theorem c3_coerce_non_object (t : Value) (pm : ObjEntries) :
    ApplyPatch.merge_patch t (.obj pm) =
      ApplyPatch.merge_patch (if t.isObj then t else .obj .nil) (.obj pm) ∧
    (ApplyPatch.merge_patch t (.obj pm)).isObj = true := by
  constructor
  · cases t <;> rfl
  · cases t <;> rfl

/-- C4: deletion semantics in both directions.  A key of old absent from
new is diffed to a Null marker; a Null patch entry removes the key from
the target object; a non-Null patch entry is merged recursively into the
target entry, created as Null first when absent. -/
theorem c4_deletion_semantics :
    (∀ (om nm : ObjEntries) (forced : List String) (p k : String),
      om.containsKey k = true → nm.containsKey k = false →
      ∃ dm, compute_diff (some (.obj om)) (.obj nm) forced p =
        some (.obj dm) ∧ dm.get k = some .null) ∧
    (∀ (tm pm : ObjEntries) (k : String), tm.nodupKeys = true →
      pm.nodupKeys = true → pm.get k = some .null →
      (ApplyPatch.merge_patch (.obj tm) (.obj pm)).objGet k = none) ∧
    (∀ (tm pm : ObjEntries) (k : String) (pv : Value),
      pm.nodupKeys = true → pm.get k = some pv → pv.isNull = false →
      (ApplyPatch.merge_patch (.obj tm) (.obj pm)).objGet k =
        some (ApplyPatch.merge_patch ((tm.get k).getD .null) pv)) := by
  refine ⟨?_, ?_, ?_⟩
  · intro om nm forced p k hom hnm
    have hmk := delMarkers_get_some om nm k hom hnm
    have hdn : (diffNewEntries om nm forced p).get k = none := by
      refine diffNewEntries_get_absent om nm forced p k ?_
      simp only [ObjEntries.containsKey] at hnm
      exact Option.not_isSome_iff_eq_none.mp (by simp [hnm])
    have hdm : ((diffNewEntries om nm forced p).append
        (delMarkers om nm)).get k = some .null := by
      rw [ObjEntries.get_append, hdn]
      simp [hmk]
    rw [compute_diff_obj, if_neg ?_]
    · exact ⟨_, rfl, hdm⟩
    · intro he
      rw [(ObjEntries.isEmpty_eq_true_iff _).mp he] at hdm
      cases hdm
  · intro tm pm k hndt hndp hg
    show (ApplyPatch.merge_entries tm pm).get k = none
    exact ApplyPatch.merge_entries_get_null tm pm k hndt hndp hg
  · intro tm pm k pv hndp hg hn
    show (ApplyPatch.merge_entries tm pm).get k = _
    exact ApplyPatch.merge_entries_get_some tm pm k pv hndp hg hn

/-- Witness for c4_deletion_semantics: a dropped key yields a Null
marker; a Null entry deletes; a non-Null entry merges into an absent
target entry. -/
theorem c4_deletion_semantics_witness :
    (∃ dm, compute_diff (some (.obj (.cons "a" (.num 1) .nil))) (.obj .nil)
      [] "" = some (.obj dm) ∧ dm.get "a" = some .null) ∧
    (ApplyPatch.merge_patch (.obj (.cons "a" (.num 1) .nil))
      (.obj (.cons "a" .null .nil))).objGet "a" = none ∧
    (ApplyPatch.merge_patch (.obj .nil)
      (.obj (.cons "b" (.num 2) .nil))).objGet "b" =
      some (ApplyPatch.merge_patch
        ((ObjEntries.nil.get "b").getD .null) (.num 2)) :=
  ⟨c4_deletion_semantics.1 _ _ [] "" "a" (by decide) (by decide),
   c4_deletion_semantics.2.1 _ _ "a" (by decide) (by decide) (by decide),
   c4_deletion_semantics.2.2 _ _ "b" (.num 2) (by decide) (by decide)
     (by decide)⟩

/-- C7: the frame property of the merger — entries of an object target
whose key does not appear in an object patch are left unchanged. -/
theorem c7_merge_frame (tm pm : ObjEntries) (k : String)
    (h : pm.containsKey k = false) :
    (ApplyPatch.merge_patch (.obj tm) (.obj pm)).objGet k = tm.get k := by
  have hg : pm.get k = none := by
    simp only [ObjEntries.containsKey] at h
    exact Option.not_isSome_iff_eq_none.mp (by simp [h])
  show (ApplyPatch.merge_entries tm pm).get k = tm.get k
  exact ApplyPatch.merge_entries_get_frame tm pm k hg

/-- Witness for c7_merge_frame: merging a patch touching only b leaves a
untouched. -/
theorem c7_merge_frame_witness :
    (ApplyPatch.merge_patch (.obj (.cons "a" (.num 1) .nil))
      (.obj (.cons "b" (.num 2) .nil))).objGet "a" =
      (ObjEntries.cons "a" (.num 1) .nil).get "a" :=
  c7_merge_frame _ _ "a" (by decide)

/-- C9: atomicity of the in-place apply — whenever any step of
apply_merge_patch_mut fails (record serialization, patch parsing, or
conversion of the merged tree back into the record type), the
caller-owned record keeps exactly its original value. -/
theorem c9_apply_mut_atomic {T P : Type} (toValue : T → Option Value)
    (fromValue : Value → Option T) (parse : P → Option Value)
    (current : T) (patch : P)
    (h : (apply_merge_patch_mut toValue fromValue parse
      current patch).2 = false) :
    (apply_merge_patch_mut toValue fromValue parse
      current patch).1 = current := by
  cases h1 : toValue current with
  | none => simp only [apply_merge_patch_mut, h1]
  | some cv =>
    cases h2 : parse patch with
    | none => simp only [apply_merge_patch_mut, h1, h2]
    | some pv =>
      cases h3 : fromValue (ApplyPatchMut.merge_patch cv pv) with
      | none => simp only [apply_merge_patch_mut, h1, h2, h3]
      | some t =>
        exfalso
        simp only [apply_merge_patch_mut, h1, h2, h3] at h
        cases h

/-- Witness for c9_apply_mut_atomic: a failing reverse conversion leaves
the record at its original value 3. -/
theorem c9_apply_mut_atomic_witness :
    (apply_merge_patch_mut (fun n : Nat => some (.num n))
      (fun _ => (none : Option Nat)) (fun _ : Nat => some .null)
      3 0).1 = 3 :=
  c9_apply_mut_atomic (fun n : Nat => some (.num n))
    (fun _ => (none : Option Nat)) (fun _ : Nat => some .null) 3 0 rfl

/-- C10: the two private mergers — merge_patch of apply_patch.rs and
merge_patch of apply_patch_mut.rs — compute the same function. -/
theorem c10_merge_patch_equivalent (target patch : Value) :
    ApplyPatch.merge_patch target patch =
      ApplyPatchMut.merge_patch target patch :=
  merge_patch_eq_aux target patch

/-- Every dot-joined path at or below a child of the path id is longer
than id, so the singleton forced set containing id holds none of them. -/
theorem forced_id_below (k d : String)
    (hd : pathBelow (childPath "id" k) d) :
    (["id"] : List String).contains d = false := by
  have hdne : ¬ d = "id" := by
    intro hcontra
    subst hcontra
    rcases hd with hc | hdd | ⟨s, hs⟩
    · rw [childPath, if_neg (by decide)] at hc
      have := congrArg String.length hc
      simp only [String.length_append] at this
      have h1 : ("id").length = 2 := rfl
      have h2 : (".").length = 1 := rfl
      have h3 : ("").length = 0 := rfl
      omega
    · rw [childPath, if_neg (by decide)] at hdd
      have := congrArg String.length hdd
      simp only [String.length_append] at this
      have h1 : ("id").length = 2 := rfl
      have h2 : (".").length = 1 := rfl
      omega
    · rw [childPath, if_neg (by decide)] at hs
      have := congrArg String.length hs
      simp only [String.length_append] at this
      have h1 : ("id").length = 2 := rfl
      have h2 : (".").length = 1 := rfl
      omega
  simp [hdne]

/-- C5: forced inclusion.  In an object-vs-object diff, a key of new whose
recursive diff vanishes but whose extended path is forced is inserted
with the new value verbatim; in particular, forcing the unchanged field
id makes diff_including emit it while diff omits it. -/
theorem c5_forced_inclusion :
    (∀ (om nm : ObjEntries) (forced : List String) (p k : String)
      (nv : Value), nm.nodupKeys = true → nm.get k = some nv →
      compute_diff (om.get k) nv forced (childPath p k) = none →
      forced.contains (childPath p k) = true →
      ∃ dm, compute_diff (some (.obj om)) (.obj nm) forced p =
        some (.obj dm) ∧ dm.get k = some nv) ∧
    (∀ (om nm : ObjEntries) (w v : Value), WF (.obj om) = true →
      WF (.obj nm) = true → om.get "id" = some w → nm.get "id" = some v →
      veq w v = true →
      (diff_includingValue (.obj om) (.obj nm) ["id"]).objGet "id" =
        some v ∧
      (diffValue (.obj om) (.obj nm)).objGet "id" = none) := by
  constructor
  · intro om nm forced p k nv hnd hnm hsub hforced
    have hdn := diffNewEntries_get_forced om nm forced p k nv hnd hnm
      hsub hforced
    have hdm : ((diffNewEntries om nm forced p).append
        (delMarkers om nm)).get k = some nv := by
      rw [ObjEntries.get_append, hdn]
      simp
    rw [compute_diff_obj, if_neg ?_]
    · exact ⟨_, rfl, hdm⟩
    · intro he
      rw [(ObjEntries.isEmpty_eq_true_iff _).mp he] at hdm
      cases hdm
  · intro om nm w v hwo hwn hw hv hveq
    have hwf' : nm.nodupKeys = true ∧ WFEntries nm = true := by
      simpa [WF, Bool.and_eq_true] using hwn
    have hwo' : om.nodupKeys = true ∧ WFEntries om = true := by
      simpa [WF, Bool.and_eq_true] using hwo
    have hwfw : WF w = true := WFEntries_get om "id" w hwo'.2 hw
    have hwfv : WF v = true := WFEntries_get nm "id" v hwf'.2 hv
    have hsub_cases : compute_diff (some w) v ["id"] "id" = none ∨
        compute_diff (some w) v ["id"] "id" = some v := by
      by_cases hvo : v.isObj = true
      · cases v with
        | obj vm =>
          cases w with
          | obj wm =>
            exact Or.inl (dn_obj_branch_inst wm vm ["id"] "id" hwfw hwfv
              hveq (fun k d hd => forced_id_below k d hd))
          | null => exact absurd hveq (by simp [veq_not_obj_left .null vm rfl])
          | bool b =>
            exact absurd hveq (by simp [veq_not_obj_left (.bool b) vm rfl])
          | num n =>
            exact absurd hveq (by simp [veq_not_obj_left (.num n) vm rfl])
          | str s =>
            exact absurd hveq (by simp [veq_not_obj_left (.str s) vm rfl])
          | arr xs =>
            exact absurd hveq (by simp [veq_not_obj_left (.arr xs) vm rfl])
        | null => simp [Value.isObj] at hvo
        | bool b => simp [Value.isObj] at hvo
        | num n => simp [Value.isObj] at hvo
        | str s => simp [Value.isObj] at hvo
        | arr xs => simp [Value.isObj] at hvo
      · right
        have hvno : v.isObj = false := by
          cases hb : v.isObj
          · rfl
          · exact absurd hb hvo
        rw [compute_diff_atomic_of_new (some w) v ["id"] "id" hvno,
          if_neg ?_]
        have hcid : (["id"] : List String).contains "id" = true := by decide
        simp [hcid]
    have hdn_inc : (diffNewEntries om nm ["id"] "").get "id" = some v := by
      rcases hsub_cases with hs | hs
      · refine diffNewEntries_get_forced om nm ["id"] "" "id" v hwf'.1 hv
          ?_ (by decide)
        rw [hw]
        exact hs
      · refine diffNewEntries_get_some om nm ["id"] "" "id" v v hwf'.1 hv ?_
        rw [hw]
        exact hs
    constructor
    · have hdm : ((diffNewEntries om nm ["id"] "").append
          (delMarkers om nm)).get "id" = some v := by
        rw [ObjEntries.get_append, hdn_inc]
        simp
      have hres : compute_diff (some (.obj om)) (.obj nm) ["id"] "" =
          some (.obj ((diffNewEntries om nm ["id"] "").append
            (delMarkers om nm))) := by
        rw [compute_diff_obj, if_neg ?_]
        intro he
        rw [(ObjEntries.isEmpty_eq_true_iff _).mp he] at hdm
        cases hdm
      rw [diff_includingValue, hres]
      exact hdm
    · have hsub0 : compute_diff (some w) v [] "id" = none :=
        dn_value v hwfv w hwfw hveq [] "id" (fun d _ => rfl)
      have hdn0 : (diffNewEntries om nm [] "").get "id" = none := by
        refine diffNewEntries_get_skip om nm [] "" "id" v hwf'.1 hv ?_ rfl
        rw [hw]
        exact hsub0
      have hmk0 : (delMarkers om nm).get "id" = none :=
        delMarkers_get_none_of_mem_nm om nm "id"
          (by simp [ObjEntries.containsKey, hv])
      have hdm0 : ((diffNewEntries om nm [] "").append
          (delMarkers om nm)).get "id" = none := by
        rw [ObjEntries.get_append, hdn0, hmk0]
        simp
      rw [diffValue]
      cases hres0 : compute_diff (some (.obj om)) (.obj nm) [] "" with
      | none => rfl
      | some d =>
        rw [compute_diff_obj] at hres0
        by_cases he : ((diffNewEntries om nm [] "").append
            (delMarkers om nm)).isEmpty = true
        · rw [if_pos he] at hres0
          cases hres0
        · rw [if_neg he] at hres0
          have hd2 : d = .obj ((diffNewEntries om nm [] "").append
              (delMarkers om nm)) := by
            cases hres0
            rfl
          rw [hd2]
          exact hdm0

/-- Witness for c5_forced_inclusion: forcing an unchanged nested empty
object, and forcing the unchanged id of a record whose name changed. -/
theorem c5_forced_inclusion_witness :
    (∃ dm, compute_diff (some (.obj (.cons "x" (.obj .nil) .nil)))
      (.obj (.cons "x" (.obj .nil) .nil)) ["x"] "" =
        some (.obj dm) ∧ dm.get "x" = some (.obj .nil)) ∧
    ((diff_includingValue
        (.obj (.cons "id" (.num 1) (.cons "name" (.str "old") .nil)))
        (.obj (.cons "id" (.num 1) (.cons "name" (.str "new") .nil)))
        ["id"]).objGet "id" = some (.num 1) ∧
      (diffValue
        (.obj (.cons "id" (.num 1) (.cons "name" (.str "old") .nil)))
        (.obj (.cons "id" (.num 1)
          (.cons "name" (.str "new") .nil)))).objGet "id" = none) :=
  ⟨c5_forced_inclusion.1 _ _ ["x"] "" "x" (.obj .nil) (by decide)
      (by decide) (by decide) (by decide),
   c5_forced_inclusion.2 _ _ (.num 1) (.num 1) (by decide) (by decide)
      (by decide) (by decide) (by decide)⟩

/-- C6: empty self-diff.  Diffing a well-formed value against itself with
the empty forced set yields none; the atomic branch returns none exactly
when old deep-equals Some(new) and the path is unforced, and Some(new)
otherwise; and diff of a value with itself is the empty object. -/
theorem c6_empty_self_diff :
    (∀ (x : Value) (p : String), WF x = true →
      compute_diff (some x) x [] p = none) ∧
    (∀ (old : Option Value) (new : Value) (forced : List String)
      (p : String),
      ¬ (∃ om nm, old = some (.obj om) ∧ new = .obj nm) →
      compute_diff old new forced p =
        if veqOpt old new && !(forced.contains p) then none
        else some new) ∧
    (∀ x : Value, WF x = true → diffValue x x = .obj .nil) := by
  refine ⟨?_, ?_, ?_⟩
  · intro x p hwf
    exact dn_value x hwf x hwf (veq_refl x hwf) [] p (fun d _ => rfl)
  · intro old new forced p hno
    rcases compute_diff_eq_atomic_or old new forced p with hcase | hcase
    · exact absurd hcase hno
    · exact hcase
  · intro x hwf
    rw [diffValue,
      dn_value x hwf x hwf (veq_refl x hwf) [] "" (fun d _ => rfl)]
    rfl

/-- Witness for c6_empty_self_diff on a one-field object and on a pair
of distinct numbers. -/
theorem c6_empty_self_diff_witness :
    compute_diff (some (.obj (.cons "a" (.num 1) .nil)))
      (.obj (.cons "a" (.num 1) .nil)) [] "" = none ∧
    compute_diff (some (.num 1)) (.num 2) [] "" =
      (if veqOpt (some (.num 1)) (.num 2) &&
         !(([] : List String).contains "") then none
       else some (.num 2)) ∧
    diffValue (.obj (.cons "a" (.num 1) .nil))
      (.obj (.cons "a" (.num 1) .nil)) = .obj .nil :=
  ⟨c6_empty_self_diff.1 _ "" (by decide),
   c6_empty_self_diff.2.1 _ _ [] ""
     (by rintro ⟨om, nm, h1, h2⟩; cases h1),
   c6_empty_self_diff.2.2 _ (by decide)⟩

/-- C8: structure and order of an emitted object-vs-object patch.  The
diff object is the entries obtained from new, in new-traversal order,
followed by the Null deletion markers, which list the keys of old absent
from new in old order; and the output is a function of the inputs. -/
theorem c8_patch_key_order (om nm : ObjEntries) (forced : List String)
    (p : String) (dm : ObjEntries)
    (h : compute_diff (some (.obj om)) (.obj nm) forced p =
      some (.obj dm)) :
    ∃ dnew : ObjEntries, dm = dnew.append (delMarkers om nm) ∧
      dnew.keys.Sublist nm.keys ∧
      (delMarkers om nm).keys =
        om.keys.filter (fun k => !(nm.containsKey k)) ∧
      (∀ k v, (delMarkers om nm).get k = some v → v = .null) ∧
      (∀ om2 nm2 : ObjEntries, om2 = om → nm2 = nm →
        compute_diff (some (.obj om2)) (.obj nm2) forced p =
          compute_diff (some (.obj om)) (.obj nm) forced p) := by
  rw [compute_diff_obj] at h
  by_cases he : ((diffNewEntries om nm forced p).append
      (delMarkers om nm)).isEmpty = true
  · rw [if_pos he] at h
    cases h
  · rw [if_neg he] at h
    have hdm : dm = (diffNewEntries om nm forced p).append
        (delMarkers om nm) := by
      cases h
      rfl
    refine ⟨diffNewEntries om nm forced p, hdm,
      diffNewEntries_keys_sublist om nm forced p,
      delMarkers_keys om nm,
      fun k v hv => delMarkers_values_null om nm k v hv,
      fun om2 nm2 h1 h2 => by rw [h1, h2]⟩

/-- Witness for c8_patch_key_order: diffing (a:1, b:2) against (a:3)
emits (a:3) first and then the marker (b:null). -/
theorem c8_patch_key_order_witness :
    ∃ dnew : ObjEntries, (ObjEntries.cons "a" (.num 3) (.cons "b" .null .nil)) =
      dnew.append (delMarkers
        (.cons "a" (.num 1) (.cons "b" (.num 2) .nil))
        (.cons "a" (.num 3) .nil)) ∧
      dnew.keys.Sublist (ObjEntries.cons "a" (Value.num 3) .nil).keys ∧
      (delMarkers (.cons "a" (.num 1) (.cons "b" (.num 2) .nil))
        (.cons "a" (.num 3) .nil)).keys =
        (ObjEntries.cons "a" (Value.num 1)
          (.cons "b" (.num 2) .nil)).keys.filter
          (fun k => !((ObjEntries.cons "a" (Value.num 3) .nil).containsKey
            k)) ∧
      (∀ k v, (delMarkers (.cons "a" (.num 1) (.cons "b" (.num 2) .nil))
        (.cons "a" (.num 3) .nil)).get k = some v → v = .null) ∧
      (∀ om2 nm2 : ObjEntries,
        om2 = ObjEntries.cons "a" (.num 1) (.cons "b" (.num 2) .nil) →
        nm2 = ObjEntries.cons "a" (.num 3) .nil →
        compute_diff (some (.obj om2)) (.obj nm2) [] "" =
          compute_diff
            (some (.obj (.cons "a" (.num 1) (.cons "b" (.num 2) .nil))))
            (.obj (.cons "a" (.num 3) .nil)) [] "") :=
  c8_patch_key_order
    (.cons "a" (.num 1) (.cons "b" (.num 2) .nil))
    (.cons "a" (.num 3) .nil) [] ""
    (.cons "a" (.num 3) (.cons "b" .null .nil)) (by decide)

end SerdePatch
